import Mathlib

/-!
Shallow embedding of the numeric routines of the `articulated` R package
(Rcpp sources `src/rythm.cpp`, `src/rhythm_extra.cpp`, `src/sequence.cpp`,
`src/vowelspace.cpp`).

Conventions used throughout:
* A C `double` cell of an R numeric vector is `Cell := Option ℚ`:
  `some q` is the finite value `q`, `none` is NaN (R stores `NA_real_` as
  a NaN payload).  Cell arithmetic propagates NaN, and every ordered
  comparison involving NaN is `false`, exactly as the IEEE comparisons in
  the C sources behave.  Division of rationals follows the Lean
  convention `q / 0 = 0`; no theorem below depends on a division-by-zero
  corner of the C code.
* An Rcpp `NumericVector` is a `List Cell`; the Rcpp idiom
  `x = x[!is_na(x)]` is `filterNA`.
* Rcpp's unchecked `operator[]` is `readIdx`, which traps an
  out-of-range index as the error `RErr.oob` instead of reading
  unspecified memory; `Rcpp::stop` is the error `RErr.invalidArg`.
  Routines whose index accesses are structurally bounded by the current
  vector length are embedded with total list operations instead.
* The C `int` parameters that the R interface supplies as non-negative
  counts (`compstart`, `compstop`) are embedded as `ℕ` (for `compstop ≤ 1`
  the C guard `n >= compstop - 1` is always true, matching truncated
  subtraction on `ℕ`); the jitter period bounds are `ℤ`.
-/

/-- A C `double`: `some q` is a finite value, `none` is NaN/NA. -/
abbrev Cell : Type := Option ℚ

/-- NaN-propagating addition of doubles. -/
def cadd : Cell → Cell → Cell
  | some a, some b => some (a + b)
  | _, _ => none

/-- NaN-propagating subtraction of doubles. -/
def csub : Cell → Cell → Cell
  | some a, some b => some (a - b)
  | _, _ => none

/-- NaN-propagating multiplication of doubles. -/
def cmul : Cell → Cell → Cell
  | some a, some b => some (a * b)
  | _, _ => none

/-- NaN-propagating division of doubles (exact rational division inside). -/
def cdiv : Cell → Cell → Cell
  | some a, some b => some (a / b)
  | _, _ => none

/-- NaN-propagating absolute value of a double. -/
def cabs : Cell → Cell
  | some a => some |a|
  | none => none

/-- The C comparison `(int) m <= v`; `false` when `v` is NaN. -/
def cgeZ (v : Cell) (m : ℤ) : Bool :=
  match v with
  | some a => decide ((m : ℚ) ≤ a)
  | none => false

/-- The C comparison `v <= (int) m`; `false` when `v` is NaN. -/
def cleZ (v : Cell) (m : ℤ) : Bool :=
  match v with
  | some a => decide (a ≤ (m : ℚ))
  | none => false

/-- The C comparison `a < b` on doubles; `false` when either is NaN. -/
def cltC : Cell → Cell → Bool
  | some a, some b => decide (a < b)
  | _, _ => false

/-- The C comparison `a > b` on doubles; `false` when either is NaN. -/
def cgtC : Cell → Cell → Bool
  | some a, some b => decide (b < a)
  | _, _ => false

/-- Errors of the embedded routines: an out-of-range vector index
(unchecked `operator[]` in the source, trapped here), or a hard
`Rcpp::stop` invalid-argument failure. -/
inductive RErr : Type
  | oob : RErr
  | invalidArg : String → RErr
deriving DecidableEq

/-- Rcpp `operator[]` on a `NumericVector`: no bounds check in the
source; the embedding traps an out-of-range index as `RErr.oob`. -/
def readIdx (x : List Cell) (i : ℕ) : Except RErr Cell :=
  match x[i]? with
  | some v => .ok v
  | none => .error .oob

/-- The Rcpp idiom `x = x[!is_na(x)]`: drop the NaN/NA cells. -/
def filterNA (x : List Cell) : List Cell :=
  x.filter (·.isSome)

/-- The rational values of a list of cells (NaN cells read as `0`;
only used on lists with no NaN cell). -/
def vals (x : List Cell) : List ℚ :=
  x.map (fun c => c.getD 0)

/-- Loop of `rPVI` (src/rythm.cpp lines 29-31): `k` iterations remain,
`i` is the loop counter, `total` the accumulator; each iteration adds
`abs(x[i] - x[i-1])`. -/
def rpviGo (x : List Cell) : ℕ → ℕ → Cell → Except RErr Cell
  | 0, _, total => .ok total
  | k + 1, i, total => do
    let xi ← readIdx x i
    let xm ← readIdx x (i - 1)
    rpviGo x k (i + 1) (cadd total (cabs (csub xi xm)))

/-- `rPVI` (src/rythm.cpp lines 19-37).  Note the source reads
`n = x.size()` on line 20, BEFORE the NA filtering of lines 23-25, and
then both the loop bound and the divisor use that pre-filter `n`. -/
def rPVI (x : List Cell) (narm : Bool) : Except RErr Cell := do
  let n := x.length
  let x := if narm then filterNA x else x
  if 1 < n then
    let total ← rpviGo x (n - 1) 1 (some 0)
    pure (cdiv total (some ((n : ℚ) - 1)))
  else
    pure none

/-- `nPVI` (src/rythm.cpp lines 56-78): here the filtering happens
first and `n = x.size()` is read AFTER it, so every index access is
bounded by the current length; the loop over `i = 1 .. n-1` is embedded
as a fold over the list of consecutive pairs `(x[i-1], x[i])`. -/
def nPVI (x : List Cell) (narm : Bool) : Cell :=
  let x := if narm then filterNA x else x
  let n := x.length
  if 1 < n then
    let total := ((x.zip x.tail).map
      (fun p => cabs (cdiv (csub p.2 p.1) (cdiv (cadd p.2 p.1) (some 2))))).foldl cadd (some 0)
    cmul (cdiv total (some ((n : ℚ) - 1))) (some 100)
  else
    none

/-- Accumulator step of the `jitter_local` loop (src/rythm.cpp lines
110-118): the pair `p = (x[i-1], x[i])` is counted only when both
members lie in `[minperiod, maxperiod]`; a counted pair adds
`abs(x[i] - x[i-1])` to `totaldev` (first accumulator) and `x[i]` to
`sum` (second accumulator). -/
def jitterStep (minperiod maxperiod : ℤ) (acc : Cell × Cell) (p : Cell × Cell) : Cell × Cell :=
  if cgeZ p.1 minperiod && cleZ p.1 maxperiod && cgeZ p.2 minperiod && cleZ p.2 maxperiod then
    (cadd acc.1 (cabs (csub p.2 p.1)), cadd acc.2 p.2)
  else
    acc

/-- `jitter_local` (src/rythm.cpp lines 94-125): filter first, read
`n = x.size()` after, seed `sum = x[0]`, fold the loop body over the
consecutive pairs, then `jitt = totaldev/(n-1)`, divided by `sum/n`
unless `absolute`. -/
def jitter_local (x : List Cell) (minperiod maxperiod : ℤ)
    (absolute : Bool) (narm : Bool) : Cell :=
  let x := if narm then filterNA x else x
  let n := x.length
  match x with
  | [] => none
  | x0 :: _ =>
    if 1 < n then
      let acc := (x.zip x.tail).foldl (jitterStep minperiod maxperiod) (some 0, x0)
      let jitt := cdiv acc.1 (some ((n : ℚ) - 1))
      if absolute then jitt else cdiv jitt (cdiv acc.2 (some (n : ℚ)))
    else
      none

/-- Summation loop over explicit indices, used by `cppRelstab` for
`refsum` (indices `0..3`) and `compsum` (indices `compstart-1..compstop-1`);
every read goes through the unchecked `operator[]`. -/
def sumIdx (x : List Cell) (idxs : List ℕ) (acc : Cell) : Except RErr Cell :=
  idxs.foldlM (fun s i => do pure (cadd s (← readIdx x i))) acc

/-- `cppRelstab` (src/rythm.cpp lines 276-305): filter, then hard
failure when `compstart < 5`, then if `n >= compstop - 1` sum `x[0..3]`
into `refsum` and `x[compstart-1 .. compstop-1]` into `compsum` and
return `compsum / refsum * 100`, else NaN.  The C loop
`for (i = compstart-1; i < compstop; ++i)` is the index list
`range' (compstart-1) (compstop - (compstart-1))`. -/
def cppRelstab (x : List Cell) (compstart compstop : ℕ) (narm : Bool) :
    Except RErr Cell := do
  let x := if narm then filterNA x else x
  if compstart < 5 then
    throw (.invalidArg "You cant investigate the stability of a sequence that is within the reference")
  let n := x.length
  if compstop - 1 ≤ n then
    let refsum ← sumIdx x (List.range 4) (some 0)
    let compsum ← sumIdx x (List.range' (compstart - 1) (compstop - (compstart - 1))) (some 0)
    pure (cmul (cdiv compsum refsum) (some 100))
  else
    pure none

/-- `cpp_cov` (src/rhythm_extra.cpp lines 19-45): filter when `na_rm`,
NaN when the length is 0 or 1, NaN when any remaining cell is NA (the
source early-returns from the first summation loop; checking up front
is equivalent since a single NA forces the NaN return), then
`sd = sqrt(sum_sq/(n-1))` and NaN when `mean == 0.0`, else `sd / mean`.
The square root of the exact rational radicand is taken in `ℝ`
(`Real.sqrt`), which is why this one definition is noncomputable; all
branch conditions are decidable rational tests. -/
noncomputable def cpp_cov (x : List Cell) (na_rm : Bool) : Option ℝ :=
  let x := if na_rm then filterNA x else x
  let n := x.length
  if n = 0 then none
  else if n = 1 then none
  else if x.any (·.isNone) then none
  else
    let v := vals x
    let mean := v.sum / n
    let sum_sq := (v.map (fun a => (a - mean) * (a - mean))).sum
    let sd : ℝ := Real.sqrt ((sum_sq / ((n : ℚ) - 1) : ℚ) : ℝ)
    if mean = 0 then none
    else some (sd / (mean : ℝ))

/-- `cpp_missing_vec_numeric` (src/sequence.cpp lines 18-27): a cell is
missing when it is NA or at most the threshold. -/
def cpp_missing_vec_numeric (x : List Cell) (what_na : ℚ) : List Bool :=
  x.map (fun c =>
    match c with
    | none => true
    | some a => decide (a ≤ what_na))

/-- Loop of `cpp_left_changepoint` (src/sequence.cpp lines 116-121):
scan consecutive classification pairs; at the first mismatch
`m[i] != m[i-1]` return the 1-based position `i + 1`.  The first
argument is the suffix of the classification vector starting at
position `i - 1` (0-based), the second is the loop counter `i`. -/
def changepointGo : List Bool → ℕ → Option ℕ
  | b0 :: b1 :: rest, i =>
    if b1 ≠ b0 then some (i + 1) else changepointGo (b1 :: rest) (i + 1)
  | _, _ => none

/-- `cpp_left_changepoint` (src/sequence.cpp lines 110-123): NA sentinel
when fewer than 2 elements, else the first transition of the missing
classification (1-based), NA sentinel when there is none. -/
def cpp_left_changepoint (x : List Cell) (what_na : ℚ) : Option ℕ :=
  let m := cpp_missing_vec_numeric x what_na
  if m.length < 2 then none
  else changepointGo m 1

/-- The retained `(position, value)` pairs of the regression routines
(src/sequence.cpp lines 173-182 resp. 227-236): keep the non-missing
cells, each paired with its ORIGINAL 1-based position `i + 1`. -/
def retained (y : List Cell) (what_na : ℚ) : List (ℚ × ℚ) :=
  (y.enum.filter (fun p =>
      !(match p.2 with
        | none => true
        | some a => decide (a ≤ what_na)))).map
    (fun p => (((p.1 + 1 : ℕ) : ℚ), p.2.getD 0))

/-- `cpp_lm_slope` (src/sequence.cpp lines 171-208): NaN when fewer
than 2 points are retained; otherwise the least-squares slope
`num / denom` over the retained points against their original 1-based
positions, with NaN when `denom == 0.0`. -/
def cpp_lm_slope (y : List Cell) (what_na : ℚ) : Option ℚ :=
  let pts := retained y what_na
  let n := pts.length
  if n < 2 then none
  else
    let mean_x := (pts.map Prod.fst).sum / n
    let mean_y := (pts.map Prod.snd).sum / n
    let num := (pts.map (fun p => (p.1 - mean_x) * (p.2 - mean_y))).sum
    let denom := (pts.map (fun p => (p.1 - mean_x) * (p.1 - mean_x))).sum
    if denom = 0 then none
    else some (num / denom)

/-- `cpp_peak_prominence` (src/sequence.cpp lines 225-275): same
retained points, means, slope and intercept as `cpp_lm_slope`; the
result is the maximum residual `y_i - (intercept + slope * x_i)`.  The
source seeds the maximum with negative infinity and the guard `n >= 2`
makes the residual list nonempty, so the fold equals `List.max?`. -/
def cpp_peak_prominence (y : List Cell) (what_na : ℚ) : Option ℚ :=
  let pts := retained y what_na
  let n := pts.length
  if n < 2 then none
  else
    let mean_x := (pts.map Prod.fst).sum / n
    let mean_y := (pts.map Prod.snd).sum / n
    let num := (pts.map (fun p => (p.1 - mean_x) * (p.2 - mean_y))).sum
    let denom := (pts.map (fun p => (p.1 - mean_x) * (p.1 - mean_x))).sum
    if denom = 0 then none
    else
      let slope := num / denom
      let intercept := mean_y - slope * mean_x
      (pts.map (fun p => p.2 - (intercept + slope * p.1))).max?

/-- Mean of a vector of cells, as computed by Rcpp `mean` on a
`NumericVector` (NaN-propagating sum divided by the length). -/
def cmeanL (l : List Cell) : Cell :=
  cdiv (l.foldl cadd (some 0)) (some (l.length : ℚ))

/-- `cpp_vowel_center` (src/vowelspace.cpp lines 21-98).  With `na_rm`
the valid pairs are those where neither coordinate is NA
(`valid = !is_na(f1) & !is_na(f2)`), and `f1_clean`/`f2_clean` are the
two projections of the retained pairs; the three methods follow the
source, any other method string is a hard failure.  Paired sequences
are zipped, which matches the R semantics for equal-length inputs (the
package invariant). -/
def cpp_vowel_center (f1 f2 : List Cell) (method : String) (na_rm : Bool) :
    Except RErr (Cell × Cell) := do
  let pairs := f1.zip f2
  let clean := if na_rm then pairs.filter (fun p => p.1.isSome && p.2.isSome) else pairs
  let f1_clean := clean.map Prod.fst
  let f2_clean := clean.map Prod.snd
  let n := clean.length
  if n = 0 then
    pure (none, none)
  else if method = "centroid" then
    pure (cmeanL f1_clean, cmeanL f2_clean)
  else if method = "twomeans" then
    let f1c := cmeanL f1_clean
    let f2_upper := (clean.filter (fun p => cgtC p.1 f1c)).map Prod.snd
    let f2_lower := (clean.filter (fun p => !cgtC p.1 f1c)).map Prod.snd
    let f2cH := if f2_upper.isEmpty then some 0
      else cdiv (f2_upper.foldl cadd (some 0)) (some (f2_upper.length : ℚ))
    let f2cL := if f2_lower.isEmpty then some 0
      else cdiv (f2_lower.foldl cadd (some 0)) (some (f2_lower.length : ℚ))
    pure (f1c, cdiv (cadd f2cH f2cL) (some 2))
  else if method = "wcentroid" then
    let f1c := cmeanL f1_clean
    let f2_lower := (clean.filter (fun p => cltC p.1 f1c)).map Prod.snd
    let f2c := if f2_lower.isEmpty then cmeanL f2_clean
      else cdiv (f2_lower.foldl cadd (some 0)) (some (f2_lower.length : ℚ))
    pure (f1c, f2c)
  else
    throw (.invalidArg "Invalid method")

/-- Modelled from the spec wording of C2 (what the claim asserts and
the code does not do): the least-squares slope of the retained values
against the CONSECUTIVE renumbering `1..k` of the retained points. -/
def lm_slope_renumbered (y : List Cell) (what_na : ℚ) : Option ℚ :=
  let vs := vals (y.filter (fun c =>
    !(match c with
      | none => true
      | some a => decide (a ≤ what_na))))
  let pts := vs.enum.map (fun p => (((p.1 + 1 : ℕ) : ℚ), p.2))
  let n := pts.length
  if n < 2 then none
  else
    let mean_x := (pts.map Prod.fst).sum / n
    let mean_y := (pts.map Prod.snd).sum / n
    let num := (pts.map (fun p => (p.1 - mean_x) * (p.2 - mean_y))).sum
    let denom := (pts.map (fun p => (p.1 - mean_x) * (p.1 - mean_x))).sum
    if denom = 0 then none
    else some (num / denom)

/-- The amended C2 spec: the least-squares slope of the retained values
against their original 1-based positions, undefined exactly when fewer
than 2 points are retained (no separate zero-variance guard: retained
positions are pairwise distinct). -/
def lm_slope_origpos (y : List Cell) (what_na : ℚ) : Option ℚ :=
  let pts := retained y what_na
  let n := pts.length
  if n < 2 then none
  else
    let mean_x := (pts.map Prod.fst).sum / n
    let mean_y := (pts.map Prod.snd).sum / n
    some ((pts.map (fun p => (p.1 - mean_x) * (p.2 - mean_y))).sum /
      (pts.map (fun p => (p.1 - mean_x) * (p.1 - mean_x))).sum)

/-! ### Helper lemmas about cells and cell lists -/

theorem cadd_comm (a b : Cell) : cadd a b = cadd b a := by
  cases a <;> cases b <;> simp [cadd, add_comm]

theorem cadd_assoc (a b c : Cell) : cadd (cadd a b) c = cadd a (cadd b c) := by
  cases a <;> cases b <;> cases c <;> simp [cadd, add_assoc]

theorem cabs_csub_comm (a b : Cell) : cabs (csub a b) = cabs (csub b a) := by
  cases a <;> cases b <;> simp [csub, cabs, abs_sub_comm]

theorem foldl_cadd_acc (l : List Cell) (t a : Cell) :
    l.foldl cadd (cadd t a) = cadd (l.foldl cadd t) a := by
  induction l generalizing t with
  | nil => rfl
  | cons b l ih =>
    simp only [List.foldl_cons]
    rw [cadd_assoc, cadd_comm a b, ← cadd_assoc, ih]

theorem foldl_cadd_reverse (l : List Cell) (t : Cell) :
    l.reverse.foldl cadd t = l.foldl cadd t := by
  induction l generalizing t with
  | nil => rfl
  | cons a l ih =>
    simp only [List.reverse_cons, List.foldl_append, List.foldl_cons, List.foldl_nil]
    rw [← foldl_cadd_acc, ih]

theorem foldl_cadd_map_some (l : List ℚ) (a : ℚ) :
    (l.map some).foldl cadd (some a) = some (a + l.sum) := by
  induction l generalizing a with
  | nil => simp [List.foldl_nil]
  | cons b l ih => simp [List.foldl_cons, cadd, ih, add_assoc]

theorem mem_filterNA_isSome {x : List Cell} {c : Cell} (h : c ∈ filterNA x) :
    c.isSome := by
  have := List.of_mem_filter h
  simpa using this

theorem filterNA_reverse (x : List Cell) :
    filterNA x.reverse = (filterNA x).reverse := by
  simp [filterNA, List.filter_reverse]

theorem allSome_eq_map_some {l : List Cell} (h : ∀ c ∈ l, c.isSome) :
    l = (vals l).map some := by
  induction l with
  | nil => rfl
  | cons c l ih =>
    have hc : c.isSome := h c (by simp)
    obtain ⟨a, rfl⟩ := Option.isSome_iff_exists.mp hc
    simp only [vals, List.map_cons, Option.getD_some]
    exact congrArg _ (ih (fun d hd => h d (by simp [hd])))

theorem filterNA_eq_map_some (x : List Cell) :
    filterNA x = (vals (filterNA x)).map some :=
  allSome_eq_map_some (fun _ h => mem_filterNA_isSome h)

theorem length_vals (l : List Cell) : (vals l).length = l.length := by
  simp [vals]

/-! ### Helper lemmas about `readIdx` and the indexed loops -/

theorem readIdx_ok {x : List Cell} {i : ℕ} (h : i < x.length) :
    readIdx x i = .ok (x.getD i none) := by
  simp [readIdx, List.getElem?_eq_getElem h, List.getD_eq_getElem _ _ h]

theorem readIdx_oob {x : List Cell} {i : ℕ} (h : x.length ≤ i) :
    readIdx x i = .error .oob := by
  simp [readIdx, List.getElem?_eq_none h]

theorem getD_reverse {l : List Cell} {i : ℕ} (h : i < l.length) :
    l.reverse.getD i none = l.getD (l.length - 1 - i) none := by
  have h1 : i < l.reverse.length := by simpa using h
  have h2 : l.length - 1 - i < l.length := by omega
  rw [List.getD_eq_getElem _ _ h1, List.getD_eq_getElem _ _ h2]
  simp [List.getElem_reverse]

theorem rpviGo_inbounds (x : List Cell) :
    ∀ (k i : ℕ) (t : Cell), i + k ≤ x.length →
    rpviGo x k i t =
      .ok ((List.range' i k).foldl
        (fun acc j => cadd acc (cabs (csub (x.getD j none) (x.getD (j - 1) none)))) t)
  | 0, i, t, _ => by simp [rpviGo]
  | k + 1, i, t, h => by
    have hi : i < x.length := by omega
    have him : i - 1 < x.length := by omega
    rw [rpviGo, readIdx_ok hi, readIdx_ok him]
    show rpviGo x k (i + 1) _ = _
    rw [rpviGo_inbounds x k (i + 1) _ (by omega), List.range'_succ]
    simp

theorem rpviGo_oob (x : List Cell) :
    ∀ (k i : ℕ) (t : Cell), 1 ≤ k → x.length < i + k →
    rpviGo x k i t = .error .oob
  | 0, _, _, hk, _ => by omega
  | k + 1, i, t, _, h => by
    by_cases hi : i < x.length
    · have hk : 1 ≤ k := by omega
      have him : i - 1 < x.length := by omega
      rw [rpviGo, readIdx_ok hi, readIdx_ok him]
      show rpviGo x k (i + 1) _ = _
      exact rpviGo_oob x k (i + 1) _ hk (by omega)
    · rw [rpviGo, readIdx_oob (by omega)]
      rfl

theorem rpvi_terms_reverse (y : List Cell) (n : ℕ) (hn : 2 ≤ n) (hl : y.length = n) :
    (List.range' 1 (n - 1)).map
        (fun j => cabs (csub (y.reverse.getD j none) (y.reverse.getD (j - 1) none))) =
      ((List.range' 1 (n - 1)).map
        (fun j => cabs (csub (y.getD j none) (y.getD (j - 1) none)))).reverse := by
  apply List.ext_getElem
  · simp
  · intro jj h1 h2
    simp only [List.getElem_map, List.getElem_range', List.getElem_reverse, List.length_map,
      List.length_range'] at h1 h2 ⊢
    have hjj : jj < n - 1 := by simpa using h1
    have e1 : y.reverse.getD (1 + 1 * jj) none = y.getD (n - 2 - jj) none := by
      rw [getD_reverse (by omega), hl]
      congr 1
      omega
    have e2 : y.reverse.getD (1 + 1 * jj - 1) none = y.getD (n - 1 - jj) none := by
      rw [getD_reverse (by omega), hl]
      congr 1
      omega
    have e3 : (1 + 1 * (n - 1 - 1 - jj) : ℕ) = n - 1 - jj := by omega
    rw [e1, e2, e3]
    have e4 : (n - 1 - jj - 1 : ℕ) = n - 2 - jj := by omega
    rw [e4]
    exact cabs_csub_comm _ _

theorem rPVI_eq (x : List Cell) (narm : Bool) :
    rPVI x narm =
      if 1 < x.length then
        (rpviGo (if narm then filterNA x else x) (x.length - 1) 1 (some 0)) >>=
          (fun total => pure (cdiv total (some ((x.length : ℚ) - 1))))
      else pure none := rfl

theorem rpvi_fold_reverse (y : List Cell) (n : ℕ) (hn : 2 ≤ n) (hl : y.length = n) :
    (List.range' 1 (n - 1)).foldl
        (fun acc j => cadd acc (cabs (csub (y.reverse.getD j none) (y.reverse.getD (j - 1) none))))
        (some 0) =
      (List.range' 1 (n - 1)).foldl
        (fun acc j => cadd acc (cabs (csub (y.getD j none) (y.getD (j - 1) none))))
        (some 0) := by
  rw [← List.foldl_map (fun j => cabs (csub (y.reverse.getD j none) (y.reverse.getD (j - 1) none)))
      cadd (List.range' 1 (n - 1)) (some 0),
    ← List.foldl_map (fun j => cabs (csub (y.getD j none) (y.getD (j - 1) none)))
      cadd (List.range' 1 (n - 1)) (some 0),
    rpvi_terms_reverse y n hn hl, foldl_cadd_reverse]

theorem rPVI_reverse (x : List Cell) (narm : Bool) :
    rPVI x.reverse narm = rPVI x narm := by
  rw [rPVI_eq, rPVI_eq]
  have hrl : x.reverse.length = x.length := by simp
  rw [hrl]
  by_cases h1 : 1 < x.length
  · rw [if_pos h1, if_pos h1]
    have hy : (if narm then filterNA x.reverse else x.reverse) =
        (if narm then filterNA x else x).reverse := by
      cases narm <;> simp [filterNA_reverse]
    rw [hy]
    set y := if narm then filterNA x else x with hydef
    have hyle : y.length ≤ x.length := by
      rw [hydef]; cases narm <;> simp [filterNA, List.length_filter_le]
    rcases Nat.lt_or_ge y.length x.length with hlt | hge
    · rw [rpviGo_oob y (x.length - 1) 1 (some 0) (by omega) (by omega),
        rpviGo_oob y.reverse (x.length - 1) 1 (some 0) (by omega) (by simp; omega)]
    · have hl : y.length = x.length := le_antisymm hyle hge
      rw [rpviGo_inbounds y (x.length - 1) 1 (some 0) (by omega),
        rpviGo_inbounds y.reverse (x.length - 1) 1 (some 0) (by simp; omega),
        rpvi_fold_reverse y x.length (by omega) hl]
  · rw [if_neg h1, if_neg h1]

theorem zip_tail_reverse (l : List Cell) :
    l.reverse.zip l.reverse.tail = ((l.zip l.tail).map Prod.swap).reverse := by
  apply List.ext_getElem
  · simp
  · intro i h1 h2
    have hi : i < l.length - 1 := by
      simp only [List.length_zip, List.length_tail, List.length_reverse] at h1
      omega
    simp only [List.getElem_zip, List.getElem_tail, List.getElem_reverse, List.getElem_map,
      List.length_map, List.length_zip, List.length_tail, List.length_reverse,
      Prod.swap_prod_mk]
    refine Prod.ext ?_ ?_
    · exact getElem_congr (by omega)
    · exact getElem_congr (by omega)

theorem nterm_swap (p : Cell × Cell) :
    cabs (cdiv (csub p.1 p.2) (cdiv (cadd p.1 p.2) (some 2))) =
      cabs (cdiv (csub p.2 p.1) (cdiv (cadd p.2 p.1) (some 2))) := by
  obtain ⟨a, b⟩ := p
  cases a with
  | none => cases b <;> rfl
  | some a =>
    cases b with
    | none => rfl
    | some b =>
      simp only [csub, cadd, cdiv, cabs, Option.some.injEq]
      rw [add_comm, ← neg_sub b a, neg_div, abs_neg]

theorem nPVI_eq (x : List Cell) (narm : Bool) :
    nPVI x narm =
      if 1 < (if narm then filterNA x else x).length then
        cmul (cdiv ((((if narm then filterNA x else x).zip
              (if narm then filterNA x else x).tail).map
            (fun p => cabs (cdiv (csub p.2 p.1) (cdiv (cadd p.2 p.1) (some 2))))).foldl
            cadd (some 0))
          (some (((if narm then filterNA x else x).length : ℚ) - 1))) (some 100)
      else none := rfl

theorem nPVI_reverse (x : List Cell) (narm : Bool) :
    nPVI x.reverse narm = nPVI x narm := by
  rw [nPVI_eq, nPVI_eq]
  have hy : (if narm then filterNA x.reverse else x.reverse) =
      (if narm then filterNA x else x).reverse := by
    cases narm <;> simp [filterNA_reverse]
  rw [hy]
  set y := if narm then filterNA x else x with hydef
  rw [List.length_reverse]
  by_cases h1 : 1 < y.length
  · rw [if_pos h1, if_pos h1]
    have hfold :
        ((y.reverse.zip y.reverse.tail).map
            (fun p => cabs (cdiv (csub p.2 p.1) (cdiv (cadd p.2 p.1) (some 2))))).foldl
            cadd (some 0) =
          ((y.zip y.tail).map
            (fun p => cabs (cdiv (csub p.2 p.1) (cdiv (cadd p.2 p.1) (some 2))))).foldl
            cadd (some 0) := by
      rw [zip_tail_reverse, List.map_reverse, List.map_map, foldl_cadd_reverse]
      refine congrArg (fun l => List.foldl cadd (some 0) l) ?_
      refine List.map_congr_left ?_
      intro p _
      exact nterm_swap p
    rw [hfold]
  · rw [if_neg h1, if_neg h1]

/-- C9: reversing the input sequence leaves both `rPVI` and `nPVI`
unchanged, for every input vector and NA-removal flag.  For `rPVI` this
includes the degenerate embeddings: an input whose filtering shortens
the vector makes the embedded `rPVI` trap out of range identically on
the reversed input. -/
theorem pvi_reverse_invariant (x : List Cell) (narm : Bool) :
    rPVI x.reverse narm = rPVI x narm ∧ nPVI x.reverse narm = nPVI x narm :=
  ⟨rPVI_reverse x narm, nPVI_reverse x narm⟩



theorem jitter_cond_eq (minp maxp : ℤ) (p : ℚ × ℚ) :
    (cgeZ (some p.1) minp && cleZ (some p.1) maxp &&
        cgeZ (some p.2) minp && cleZ (some p.2) maxp) =
      decide (((minp : ℚ) ≤ p.1 ∧ p.1 ≤ (maxp : ℚ)) ∧
        ((minp : ℚ) ≤ p.2 ∧ p.2 ≤ (maxp : ℚ))) := by
  simp [cgeZ, cleZ, Bool.and_assoc, and_assoc]

theorem jitter_fold (minp maxp : ℤ) :
    ∀ (ps : List (ℚ × ℚ)) (t s : ℚ),
    (ps.map (Prod.map some some)).foldl (jitterStep minp maxp) (some t, some s) =
      (some (t + ((ps.filter (fun p => cgeZ (some p.1) minp && cleZ (some p.1) maxp &&
          cgeZ (some p.2) minp && cleZ (some p.2) maxp)).map (fun p => |p.2 - p.1|)).sum),
       some (s + ((ps.filter (fun p => cgeZ (some p.1) minp && cleZ (some p.1) maxp &&
          cgeZ (some p.2) minp && cleZ (some p.2) maxp)).map Prod.snd).sum))
  | [], t, s => by simp
  | p :: ps, t, s => by
    simp only [List.map_cons, List.foldl_cons, List.filter_cons]
    cases hd : (cgeZ (some p.1) minp && cleZ (some p.1) maxp &&
        cgeZ (some p.2) minp && cleZ (some p.2) maxp) with
    | false =>
      have hstep : jitterStep minp maxp (some t, some s) (Prod.map some some p) =
          (some t, some s) := by
        rw [jitterStep]
        simp only [Prod.map_fst, Prod.map_snd, hd, Bool.false_eq_true, if_false]
      rw [hstep]
      exact jitter_fold minp maxp ps t s
    | true =>
      have hstep : jitterStep minp maxp (some t, some s) (Prod.map some some p) =
          (some (t + |p.2 - p.1|), some (s + p.2)) := by
        rw [jitterStep]
        simp only [Prod.map_fst, Prod.map_snd, hd, if_true]
        rfl
      rw [hstep]
      simp only [if_true, List.map_cons, List.sum_cons]
      rw [jitter_fold minp maxp ps (t + |p.2 - p.1|) (s + p.2)]
      rw [add_assoc, add_assoc]

/-- C6: `jitter_local` with NA removal equals the spec formula: a
consecutive pair is counted exactly when both members lie in
`[minperiod, maxperiod]`, `totaldev` is the sum of `|x[i] - x[i-1]|`
over counted pairs, `sum` is `x[0]` plus every counted `x[i]`, the
result is `totaldev/(n-1)`, additionally divided by `sum/n` unless
`absolute`, and the NaN sentinel is returned when the filtered length
`n` is at most 1. -/
theorem jitter_local_spec (x : List Cell) (minp maxp : ℤ) (ab : Bool) :
    jitter_local x minp maxp ab true =
      (let v := vals (filterNA x)
       let counted := (v.zip v.tail).filter (fun p =>
         decide (((minp : ℚ) ≤ p.1 ∧ p.1 ≤ (maxp : ℚ)) ∧
           ((minp : ℚ) ≤ p.2 ∧ p.2 ≤ (maxp : ℚ))))
       let totaldev := (counted.map (fun p => |p.2 - p.1|)).sum
       let jitt := totaldev / ((v.length : ℚ) - 1)
       if 1 < v.length then
         some (if ab then jitt
           else jitt / ((v.headD 0 + (counted.map Prod.snd).sum) / (v.length : ℚ)))
       else none) := by
  have hmap : filterNA x = (vals (filterNA x)).map some := filterNA_eq_map_some x
  rcases hv : vals (filterNA x) with _ | ⟨v0, vt⟩
  · have h0 : filterNA x = [] := by rw [hmap, hv]; rfl
    simp [jitter_local, h0]
  · have h0 : filterNA x = (v0 :: vt).map some := by rw [hmap, hv]
    have hzip : (some v0 :: vt.map some).zip (vt.map some) =
        ((v0 :: vt).zip vt).map (Prod.map some some) := by
      show (((v0 :: vt).map some).zip (vt.map some)) = _
      rw [List.zip_map]
    have hfc : ((v0 :: vt).zip vt).filter (fun p =>
          cgeZ (some p.1) minp && cleZ (some p.1) maxp &&
          cgeZ (some p.2) minp && cleZ (some p.2) maxp) =
        ((v0 :: vt).zip vt).filter (fun p =>
          decide (((minp : ℚ) ≤ p.1 ∧ p.1 ≤ (maxp : ℚ)) ∧
            ((minp : ℚ) ≤ p.2 ∧ p.2 ≤ (maxp : ℚ)))) :=
      List.filter_congr (fun p _ => jitter_cond_eq minp maxp p)
    simp only [jitter_local, h0, List.map_cons, if_true, List.length_cons, List.length_map,
      List.tail_cons]
    rw [show (some v0 :: vt.map some).zip (vt.map some) =
        ((v0 :: vt).zip vt).map (Prod.map some some) from hzip]
    rw [jitter_fold minp maxp ((v0 :: vt).zip vt) 0 v0, hfc]
    simp only [List.zip_cons_cons, List.tail_cons, List.headD_cons, zero_add]
    by_cases hn : 1 < vt.length + 1
    · rw [if_pos hn, if_pos hn]
      cases ab
      · rfl
      · rfl
    · rw [if_neg hn, if_neg hn]

theorem sumIdx_inbounds (x : List Cell) :
    ∀ (idxs : List ℕ) (acc : Cell), (∀ j ∈ idxs, j < x.length) →
    sumIdx x idxs acc = .ok (idxs.foldl (fun s j => cadd s (x.getD j none)) acc)
  | [], acc, _ => rfl
  | i :: idxs, acc, h => by
    have hi : i < x.length := h i (by simp)
    rw [sumIdx, List.foldlM_cons, readIdx_ok hi]
    show sumIdx x idxs (cadd acc (x.getD i none)) = _
    rw [sumIdx_inbounds x idxs (cadd acc (x.getD i none)) (fun j hj => h j (by simp [hj]))]
    rfl

theorem sumIdx_ok_or_oob (x : List Cell) :
    ∀ (idxs : List ℕ) (acc : Cell),
    (∃ v, sumIdx x idxs acc = .ok v) ∨ sumIdx x idxs acc = .error .oob
  | [], acc => .inl ⟨acc, rfl⟩
  | i :: idxs, acc => by
    rcases Nat.lt_or_ge i x.length with hi | hi
    · rw [sumIdx, List.foldlM_cons, readIdx_ok hi]
      exact sumIdx_ok_or_oob x idxs (cadd acc (x.getD i none))
    · right
      rw [sumIdx, List.foldlM_cons, readIdx_oob hi]
      rfl

theorem foldl_getD_range' (x : List Cell) :
    ∀ (k a : ℕ) (acc : Cell), (∀ j ∈ List.range' a k, j < x.length) →
    (List.range' a k).foldl (fun s j => cadd s (x.getD j none)) acc =
      ((x.drop a).take k).foldl cadd acc
  | 0, a, acc, _ => by simp
  | k + 1, a, acc, h => by
    have ha : a < x.length := h a (by simp [List.range'_succ])
    rw [List.range'_succ, List.foldl_cons,
      List.drop_eq_getElem_cons ha, List.take_succ_cons, List.foldl_cons,
      foldl_getD_range' x k (a + 1) _ (fun j hj => h j (by simp [List.range'_succ, hj])),
      List.getD_eq_getElem _ _ ha]

theorem except_bind_ok (v : Cell) (k : Cell → Except RErr Cell) :
    (Except.ok v : Except RErr Cell).bind k = k v := rfl

theorem except_bind_error (e : RErr) (k : Cell → Except RErr Cell) :
    (Except.error e : Except RErr Cell).bind k = .error e := rfl

theorem cppRelstab_eq_of_lt (x : List Cell) (cs stop : ℕ) (narm : Bool) (h : cs < 5) :
    cppRelstab x cs stop narm =
      .error (.invalidArg
        "You cant investigate the stability of a sequence that is within the reference") := by
  simp only [cppRelstab]
  rw [if_pos h]
  rfl

theorem cppRelstab_eq_of_ge (x : List Cell) (cs stop : ℕ) (narm : Bool) (h : ¬cs < 5) :
    cppRelstab x cs stop narm =
      if stop - 1 ≤ (if narm then filterNA x else x).length then
        (sumIdx (if narm then filterNA x else x) (List.range 4) (some 0)).bind (fun refsum =>
          (sumIdx (if narm then filterNA x else x)
              (List.range' (cs - 1) (stop - (cs - 1))) (some 0)).bind (fun compsum =>
            pure (cmul (cdiv compsum refsum) (some 100))))
      else .ok none := by
  simp only [cppRelstab]
  rw [if_neg h]
  rfl

/-- C3 counterexample: the claimed precondition (filtered length at
least `compstop - 1`, with `compstart ≥ 5`) does NOT keep the accesses
in bounds.  With eleven elements, `compstart = 5` and `compstop = 12`
the guard `n >= compstop - 1` passes, yet the `compsum` loop reads the
0-based index `compstop - 1 = 11`, which equals the length: the
embedded indexing hits its out-of-range branch. -/
theorem cppRelstab_oob_at_guard_boundary :
    12 - 1 ≤ (filterNA (List.replicate 11 (some (1 : ℚ)))).length ∧ 5 ≤ 5 ∧
    cppRelstab (List.replicate 11 (some (1 : ℚ))) 5 12 true = .error RErr.oob := by
  refine ⟨by decide, by decide, ?_⟩
  rfl

/-- C3 amended: when the filtered length is at least `max compstop 4`
(rather than `compstop - 1`) and `compstart ≥ 5`, every index the
embedded `cppRelstab` reads lies strictly below the length, the
out-of-range branch is never hit, and the result is
`compsum / refsum * 100` with `refsum` the sum of the first 4 elements
and `compsum` the sum of the elements at 0-based indices
`[compstart - 1, compstop)`. -/
theorem cppRelstab_inbounds (x : List Cell) (cs stop : ℕ) (narm : Bool)
    (hcs : 5 ≤ cs) (h4 : 4 ≤ (if narm then filterNA x else x).length)
    (hstop : stop ≤ (if narm then filterNA x else x).length) :
    cppRelstab x cs stop narm =
      .ok (cmul (cdiv
        ((((if narm then filterNA x else x).drop (cs - 1)).take (stop - (cs - 1))).foldl
          cadd (some 0))
        (((if narm then filterNA x else x).take 4).foldl cadd (some 0)))
        (some 100)) := by
  set y := if narm then filterNA x else x with hy
  rw [cppRelstab_eq_of_ge x cs stop narm (by omega)]
  rw [if_pos (by omega : stop - 1 ≤ y.length)]
  rw [sumIdx_inbounds y (List.range 4) (some 0)
    (fun j hj => by have := List.mem_range.mp hj; omega)]
  rw [except_bind_ok]
  rw [sumIdx_inbounds y (List.range' (cs - 1) (stop - (cs - 1))) (some 0)
    (fun j hj => by have := List.mem_range'_1.mp hj; omega)]
  rw [except_bind_ok]
  rw [List.range_eq_range']
  rw [foldl_getD_range' y 4 0 (some 0)
    (fun j hj => by have := List.mem_range'_1.mp hj; omega)]
  rw [foldl_getD_range' y (stop - (cs - 1)) (cs - 1) (some 0)
    (fun j hj => by have := List.mem_range'_1.mp hj; omega)]
  rw [List.drop_zero]
  rfl

/-- Witness for the amended C3 theorem at a concrete input: twelve
ones, `compstart = 5`, `compstop = 12`; the hypotheses hold and the
call returns `8 / 4 * 100 = 200` without hitting the out-of-range
branch. -/
theorem cppRelstab_inbounds_witness :
    cppRelstab (List.replicate 12 (some (1 : ℚ))) 5 12 true = .ok (some 200) := by
  rw [cppRelstab_inbounds (List.replicate 12 (some 1)) 5 12 true (by decide) (by decide)
    (by decide)]
  norm_num [filterNA, List.replicate, cadd, cdiv, cmul]

/-- C4: the embedded `cppRelstab` raises the hard Invalid-Argument
failure exactly when `compstart < 5`, for every input vector; and for
`compstart ≥ 5` an insufficient length (below `compstop - 1`) yields
the NaN sentinel, not a failure. -/
theorem cppRelstab_invalidArg_iff (x : List Cell) (cs stop : ℕ) (narm : Bool) :
    ((∃ msg, cppRelstab x cs stop narm = .error (.invalidArg msg)) ↔ cs < 5) ∧
    (5 ≤ cs → (if narm then filterNA x else x).length < stop - 1 →
      cppRelstab x cs stop narm = .ok none) := by
  by_cases hlt : cs < 5
  · refine ⟨⟨fun _ => hlt, fun _ => ⟨_, cppRelstab_eq_of_lt x cs stop narm hlt⟩⟩, ?_⟩
    intro hge
    omega
  · have he := cppRelstab_eq_of_ge x cs stop narm hlt
    refine ⟨⟨?_, fun hc => absurd hc hlt⟩, ?_⟩
    · rintro ⟨msg, hmsg⟩
      rw [he] at hmsg
      by_cases hg : stop - 1 ≤ (if narm then filterNA x else x).length
      · rw [if_pos hg] at hmsg
        rcases sumIdx_ok_or_oob (if narm then filterNA x else x)
            (List.range 4) (some 0) with ⟨v, hv⟩ | hv
        · rw [hv, except_bind_ok] at hmsg
          rcases sumIdx_ok_or_oob (if narm then filterNA x else x)
              (List.range' (cs - 1) (stop - (cs - 1))) (some 0) with ⟨w, hw⟩ | hw
          · rw [hw, except_bind_ok] at hmsg
            exact Except.noConfusion hmsg
          · rw [hw, except_bind_error] at hmsg
            injection hmsg with h1
            exact RErr.noConfusion h1
        · rw [hv, except_bind_error] at hmsg
          injection hmsg with h1
          exact RErr.noConfusion h1
      · rw [if_neg hg] at hmsg
        exact Except.noConfusion hmsg
    · intro _ hlen
      rw [he, if_neg (by omega)]

/-- Witness for C4 at a concrete input: on the empty vector with
`compstart = 5`, `compstop = 12`, no Invalid-Argument failure occurs
and the insufficient length yields the NaN sentinel. -/
theorem cppRelstab_invalidArg_iff_witness :
    ¬(∃ msg, cppRelstab ([] : List Cell) 5 12 true = .error (.invalidArg msg)) ∧
    cppRelstab ([] : List Cell) 5 12 true = .ok none := by
  have h := cppRelstab_invalidArg_iff ([] : List Cell) 5 12 true
  refine ⟨fun hex => ?_, h.2 (by decide) (by decide)⟩
  have := h.1.mp hex
  omega

/-- C5: `cpp_cov` with NA removal returns the sample standard deviation
(`n-1` denominator, square root taken in `ℝ`) divided by the mean of
the filtered values, and returns the NaN sentinel exactly when the
filtered length is 0 or 1, or some cell remains NA after filtering
(impossible, hence the disjunct is recorded but never fires), or the
mean is exactly 0; in particular on `[2,4,4,4,5,5,7,9]` it returns
`sqrt(32/7)/5`. -/
theorem cpp_cov_spec (x : List Cell) :
    (cpp_cov x true =
      (let y := filterNA x
       let v := vals y
       let mean := v.sum / (y.length : ℚ)
       if y.length = 0 ∨ y.length = 1 ∨ (∃ c ∈ y, c = none) ∨ mean = 0 then none
       else some (Real.sqrt (((v.map (fun a => (a - mean) * (a - mean))).sum /
           ((y.length : ℚ) - 1) : ℚ) : ℝ) / ((mean : ℚ) : ℝ)))) ∧
    cpp_cov [some 2, some 4, some 4, some 4, some 5, some 5, some 7, some 9] true =
      some (Real.sqrt ((32 : ℝ) / 7) / 5) := by
  constructor
  · have hnone : ¬∃ c ∈ filterNA x, c = none := by
      rintro ⟨c, hc, rfl⟩
      have := mem_filterNA_isSome hc
      simp at this
    have hany : (filterNA x).any (·.isNone) = false := by
      rw [List.any_eq_false]
      intro c hc
      have h := mem_filterNA_isSome hc
      rcases c with _ | a
      · simp at h
      · simp
    show cpp_cov x true = _
    simp only [cpp_cov, if_true]
    by_cases h0 : (filterNA x).length = 0
    · rw [if_pos h0, if_pos (Or.inl h0)]
    · rw [if_neg h0]
      by_cases h1 : (filterNA x).length = 1
      · rw [if_pos h1, if_pos (Or.inr (Or.inl h1))]
      · rw [if_neg h1, hany]
        rw [if_neg (by simp : ¬(false = true))]
        by_cases hm : (vals (filterNA x)).sum / ((filterNA x).length : ℚ) = 0
        · rw [if_pos hm, if_pos (Or.inr (Or.inr (Or.inr hm)))]
        · rw [if_neg hm, if_neg (by
            rintro (h | h | h | h)
            · exact h0 h
            · exact h1 h
            · exact hnone h
            · exact hm h)]
  · norm_num [cpp_cov, filterNA, vals]

theorem changepointGo_none_iff : ∀ (m : List Bool) (i : ℕ),
    changepointGo m i = none ↔
      ∀ j, j + 1 < m.length → m.getD (j + 1) false = m.getD j false
  | [], i => by simp [changepointGo]
  | [b], i => by simp [changepointGo]
  | b0 :: b1 :: rest, i => by
    rw [changepointGo]
    by_cases hb : b1 = b0
    · rw [if_neg (by simp [hb])]
      rw [changepointGo_none_iff (b1 :: rest) (i + 1)]
      constructor
      · intro h j hj
        cases j with
        | zero => simpa using hb
        | succ k =>
          have hk := h k (by simp only [List.length_cons] at hj ⊢; omega)
          simpa using hk
      · intro h j hj
        have hk := h (j + 1) (by simp only [List.length_cons] at hj ⊢; omega)
        simpa using hk
    · rw [if_pos hb]
      constructor
      · intro h
        exact Option.noConfusion h
      · intro h
        exfalso
        have h0 := h 0 (by simp only [List.length_cons]; omega)
        simp at h0
        exact hb h0
  termination_by m => m.length

theorem changepointGo_some_iff : ∀ (m : List Bool) (i p : ℕ),
    changepointGo m i = some p ↔
      ∃ j, j + 1 < m.length ∧ m.getD (j + 1) false ≠ m.getD j false ∧
        (∀ k, k < j → m.getD (k + 1) false = m.getD k false) ∧ p = i + j + 1
  | [], i, p => by simp [changepointGo]
  | [b], i, p => by simp [changepointGo]
  | b0 :: b1 :: rest, i, p => by
    rw [changepointGo]
    by_cases hb : b1 = b0
    · rw [if_neg (by simp [hb]), changepointGo_some_iff (b1 :: rest) (i + 1) p]
      constructor
      · rintro ⟨j, hj1, hj2, hj3, rfl⟩
        refine ⟨j + 1, by simp only [List.length_cons] at hj1 ⊢; omega,
          by simpa using hj2, ?_, by omega⟩
        intro k hk
        cases k with
        | zero => simpa using hb
        | succ k2 =>
          have hh := hj3 k2 (by omega)
          simpa using hh
      · rintro ⟨j, hj1, hj2, hj3, rfl⟩
        cases j with
        | zero =>
          exfalso
          apply hj2
          simpa using hb
        | succ j2 =>
          refine ⟨j2, by simp only [List.length_cons] at hj1 ⊢; omega,
            by simpa using hj2, ?_, by omega⟩
          intro k hk
          have hh := hj3 (k + 1) (by omega)
          simpa using hh
    · rw [if_pos hb]
      constructor
      · intro h
        refine ⟨0, by simp only [List.length_cons]; omega, by simpa using hb,
          fun k hk => absurd hk (Nat.not_lt_zero k), ?_⟩
        have := Option.some.inj h
        omega
      · rintro ⟨j, hj1, hj2, hj3, rfl⟩
        cases j with
        | zero => rfl
        | succ j2 =>
          exfalso
          have h0 := hj3 0 (by omega)
          simp at h0
          exact hb h0
  termination_by m => m.length

/-- C7: `cpp_left_changepoint` returns exactly the first 1-based
position `p ≥ 2` at which the missing classification flips between the
1-based positions `p-1` and `p` (0-based cells `p-2` and `p-1`), and
the no-value sentinel exactly when the length is below 2 or no
transition exists; in particular on `[0, 0, 1.2, 1.5, 2.0]` with
threshold 0 it returns 3. -/
theorem cpp_left_changepoint_spec (x : List Cell) (t : ℚ) :
    (∀ p, cpp_left_changepoint x t = some p ↔
      (2 ≤ p ∧ p ≤ (cpp_missing_vec_numeric x t).length ∧
        (cpp_missing_vec_numeric x t).getD (p - 1) false ≠
          (cpp_missing_vec_numeric x t).getD (p - 2) false ∧
        ∀ q, 2 ≤ q → q < p →
          (cpp_missing_vec_numeric x t).getD (q - 1) false =
            (cpp_missing_vec_numeric x t).getD (q - 2) false)) ∧
    (cpp_left_changepoint x t = none ↔
      ((cpp_missing_vec_numeric x t).length < 2 ∨
        ∀ q, 2 ≤ q → q ≤ (cpp_missing_vec_numeric x t).length →
          (cpp_missing_vec_numeric x t).getD (q - 1) false =
            (cpp_missing_vec_numeric x t).getD (q - 2) false)) ∧
    cpp_left_changepoint [some 0, some 0, some (6/5), some (3/2), some 2] 0 = some 3 := by
  refine ⟨?_, ?_, ?_⟩
  · intro p
    rw [cpp_left_changepoint]
    by_cases hlen : (cpp_missing_vec_numeric x t).length < 2
    · rw [if_pos hlen]
      constructor
      · intro h
        exact Option.noConfusion h
      · rintro ⟨h2, hle, _, _⟩
        omega
    · rw [if_neg hlen]
      rw [changepointGo_some_iff]
      constructor
      · rintro ⟨j, hj1, hj2, hj3, rfl⟩
        refine ⟨by omega, by omega, ?_, ?_⟩
        · have e1 : 1 + j + 1 - 1 = j + 1 := by omega
          have e2 : 1 + j + 1 - 2 = j := by omega
          rw [e1, e2]
          exact hj2
        · intro q hq2 hqp
          have e1 : q - 1 = (q - 2) + 1 := by omega
          rw [e1]
          exact hj3 (q - 2) (by omega)
      · rintro ⟨h2, hle, hmis, hmin⟩
        refine ⟨p - 2, by omega, ?_, ?_, by omega⟩
        · have e1 : p - 2 + 1 = p - 1 := by omega
          rw [e1]
          exact hmis
        · intro k hk
          have hq := hmin (k + 2) (by omega) (by omega)
          have e1 : k + 2 - 1 = k + 1 := by omega
          have e2 : k + 2 - 2 = k := by omega
          rw [e1, e2] at hq
          exact hq
  · rw [cpp_left_changepoint]
    by_cases hlen : (cpp_missing_vec_numeric x t).length < 2
    · rw [if_pos hlen]
      simp only [true_iff]
      exact Or.inl hlen
    · rw [if_neg hlen]
      rw [changepointGo_none_iff]
      constructor
      · intro h
        right
        intro q hq2 hqle
        have hj := h (q - 2) (by omega)
        have e1 : q - 2 + 1 = q - 1 := by omega
        rw [e1] at hj
        exact hj
      · rintro (h | h)
        · omega
        · intro j hj
          have hq := h (j + 2) (by omega) (by omega)
          have e1 : j + 2 - 1 = j + 1 := by omega
          have e2 : j + 2 - 2 = j := by omega
          rw [e1, e2] at hq
          exact hq
  · norm_num [cpp_left_changepoint, cpp_missing_vec_numeric, changepointGo]

theorem list_sum_pos_of_mem {l : List ℚ} (hall : ∀ a ∈ l, 0 ≤ a) {b : ℚ}
    (hb : b ∈ l) (hbpos : 0 < b) : 0 < l.sum := by
  induction l with
  | nil => simp at hb
  | cons a l ih =>
    rw [List.sum_cons]
    rcases List.mem_cons.mp hb with rfl | hbl
    · have hl : 0 ≤ l.sum := List.sum_nonneg (fun a ha => hall a (by simp [ha]))
      linarith
    · have ha : 0 ≤ a := hall a (by simp)
      have hl : 0 < l.sum := ih (fun c hc => hall c (by simp [hc])) hbl
      linarith

theorem retained_fst_pairwise (y : List Cell) (t : ℚ) :
    (retained y t).Pairwise (fun p q => p.1 < q.1) := by
  rw [retained, List.pairwise_map]
  have henum : y.enum.Pairwise (fun a b => a.1 < b.1) := by
    have h1 : (y.enum.map Prod.fst).Pairwise (· < ·) := by
      rw [List.enum_map_fst]
      exact List.pairwise_lt_range _
    exact (List.pairwise_map.mp h1)
  refine List.Pairwise.imp (fun h => ?_)
    (List.Pairwise.sublist (List.filter_sublist y.enum) henum)
  exact Nat.cast_lt.mpr (by omega)

theorem sumSq_pos (pts : List (ℚ × ℚ)) (m : ℚ)
    (hpw : pts.Pairwise (fun p q => p.1 < q.1)) (h2 : 2 ≤ pts.length) :
    0 < (pts.map (fun p => (p.1 - m) * (p.1 - m))).sum := by
  rcases pts with _ | ⟨p, _ | ⟨q, rest⟩⟩
  · simp at h2
  · simp at h2
  · have hpq : p.1 < q.1 := (List.pairwise_cons.mp hpw).1 q (by simp)
    have hne : p.1 ≠ m ∨ q.1 ≠ m := by
      by_contra hcon
      push_neg at hcon
      rw [hcon.1] at hpq
      rw [hcon.2] at hpq
      exact lt_irrefl m hpq
    have hall : ∀ a ∈ (p :: q :: rest).map (fun p => (p.1 - m) * (p.1 - m)), 0 ≤ a := by
      intro a ha
      rcases List.mem_map.mp ha with ⟨e, _, rfl⟩
      exact mul_self_nonneg _
    rcases hne with hne | hne
    · exact list_sum_pos_of_mem hall
        (List.mem_map_of_mem (fun r : ℚ × ℚ => (r.1 - m) * (r.1 - m))
          (List.mem_cons_self p (q :: rest)))
        (mul_self_pos.mpr (sub_ne_zero.mpr hne))
    · exact list_sum_pos_of_mem hall
        (List.mem_map_of_mem (fun r : ℚ × ℚ => (r.1 - m) * (r.1 - m))
          (List.mem_cons_of_mem p (List.mem_cons_self q rest)))
        (mul_self_pos.mpr (sub_ne_zero.mpr hne))

/-- C2 counterexample: on `[1, 0, 2]` with threshold 0 the middle value
is missing, the retained points sit at original positions 1 and 3, and
`cpp_lm_slope` returns `1/2`, while the claimed regression against the
consecutive renumbering `1..k` of the retained points returns `1`. -/
theorem cpp_lm_slope_not_renumbered :
    cpp_lm_slope [some 1, some 0, some 2] 0 ≠
      lm_slope_renumbered [some 1, some 0, some 2] 0 ∧
    cpp_lm_slope [some 1, some 0, some 2] 0 = some (1 / 2) ∧
    lm_slope_renumbered [some 1, some 0, some 2] 0 = some 1 := by
  have h1 : cpp_lm_slope [some 1, some 0, some 2] 0 = some (1 / 2) := by
    norm_num [cpp_lm_slope, retained, List.enum, List.enumFrom]
  have h2 : lm_slope_renumbered [some 1, some 0, some 2] 0 = some 1 := by
    norm_num [lm_slope_renumbered, vals, filterNA, List.enum, List.enumFrom]
  refine ⟨?_, h1, h2⟩
  rw [h1, h2]
  intro hcon
  have := Option.some.inj hcon
  norm_num at this

/-- C2 amended: `cpp_lm_slope` equals the least-squares slope of the
retained values against their ORIGINAL 1-based positions in the input
(each retained point keeps its position `i + 1`), with the NaN sentinel
exactly when fewer than 2 points are retained; the zero-variance guard
of the source never fires because retained positions are pairwise
distinct. -/
theorem cpp_lm_slope_original_positions (y : List Cell) (t : ℚ) :
    cpp_lm_slope y t = lm_slope_origpos y t := by
  simp only [cpp_lm_slope, lm_slope_origpos]
  by_cases h2 : (retained y t).length < 2
  · rw [if_pos h2, if_pos h2]
  · rw [if_neg h2, if_neg h2]
    rw [if_neg (ne_of_gt (sumSq_pos (retained y t) _
      (retained_fst_pairwise y t) (by omega)))]

theorem max?_spec {l : List ℚ} {m : ℚ} (h : l.max? = some m) :
    m ∈ l ∧ ∀ x ∈ l, x ≤ m :=
  ⟨List.max?_mem (fun a b => max_choice a b) h,
   fun x hx => ((List.max?_le_iff (fun _ _ _ => max_le_iff) h).mp (le_refl m)) x hx⟩

theorem resid_map_sum (pts : List (ℚ × ℚ)) (A B : ℚ) :
    (pts.map (fun p => p.2 - (A + B * p.1))).sum =
      (pts.map Prod.snd).sum - ((pts.length : ℚ) * A + B * (pts.map Prod.fst).sum) := by
  induction pts with
  | nil => simp
  | cons p l ih =>
    simp only [List.map_cons, List.sum_cons, List.length_cons]
    rw [ih]
    push_cast
    ring

/-- C10: whenever `cpp_peak_prominence` returns a defined value, that
value is nonnegative: the least-squares residuals sum to zero in exact
arithmetic, so their maximum cannot be negative. -/
theorem cpp_peak_prominence_nonneg (y : List Cell) (t : ℚ) (r : ℚ)
    (h : cpp_peak_prominence y t = some r) : 0 ≤ r := by
  simp only [cpp_peak_prominence] at h
  split at h
  · exact Option.noConfusion h
  · next hge =>
    split at h
    · exact Option.noConfusion h
    · next hden =>
      set pts := retained y t with hpts
      set mx := (pts.map Prod.fst).sum / (pts.length : ℚ) with hmx
      set my := (pts.map Prod.snd).sum / (pts.length : ℚ) with hmy
      set B := (pts.map (fun p => (p.1 - mx) * (p.2 - my))).sum /
        (pts.map (fun p => (p.1 - mx) * (p.1 - mx))).sum with hB
      obtain ⟨hmem, hle⟩ := max?_spec h
      have hn2 : 2 ≤ pts.length := by omega
      have hn0 : (pts.length : ℚ) ≠ 0 := Nat.cast_ne_zero.mpr (by omega)
      have hsum0 : (pts.map (fun p => p.2 - (my - B * mx + B * p.1))).sum = 0 := by
        rw [resid_map_sum pts (my - B * mx) B, hmy, hmx]
        field_simp
      have hub := List.sum_le_card_nsmul (pts.map (fun p => p.2 - (my - B * mx + B * p.1))) r hle
      rw [hsum0, List.length_map, nsmul_eq_mul] at hub
      have hpos : (0 : ℚ) < (pts.length : ℚ) := by exact_mod_cast (by omega : 0 < pts.length)
      nlinarith [hub, hpos]

/-- Witness for C10 at a concrete input: two points on a straight line,
where the maximum residual is exactly 0. -/
theorem cpp_peak_prominence_nonneg_witness :
    cpp_peak_prominence [some 1, some 2] 0 = some 0 ∧ (0 : ℚ) ≤ 0 := by
  have hval : cpp_peak_prominence [some 1, some 2] 0 = some 0 := by
    norm_num [cpp_peak_prominence, retained, List.enum, List.enumFrom, List.max?]
  exact ⟨hval, cpp_peak_prominence_nonneg [some 1, some 2] 0 0 hval⟩

theorem allSomePairs {l : List (Cell × Cell)} (h : ∀ p ∈ l, p.1.isSome ∧ p.2.isSome) :
    l = (l.map (fun p => (p.1.getD 0, p.2.getD 0))).map (Prod.map some some) := by
  induction l with
  | nil => rfl
  | cons p l ih =>
    obtain ⟨h1, h2⟩ := h p (by simp)
    obtain ⟨a, ha⟩ := Option.isSome_iff_exists.mp h1
    obtain ⟨b, hb⟩ := Option.isSome_iff_exists.mp h2
    simp only [List.map_cons]
    rw [← ih (fun q hq => h q (by simp [hq]))]
    obtain ⟨pa, pb⟩ := p
    simp only at ha hb
    rw [ha, hb]
    rfl

theorem map_pairs_fst (l : List (ℚ × ℚ)) :
    (l.map (Prod.map some some)).map Prod.fst = (l.map Prod.fst).map some := by
  induction l with
  | nil => rfl
  | cons p l ih => simp only [List.map_cons, ih]; rfl

theorem map_pairs_snd (l : List (ℚ × ℚ)) :
    (l.map (Prod.map some some)).map Prod.snd = (l.map Prod.snd).map some := by
  induction l with
  | nil => rfl
  | cons p l ih => simp only [List.map_cons, ih]; rfl

theorem cmeanL_map_some (l : List ℚ) :
    cmeanL (l.map some) = some (l.sum / (l.length : ℚ)) := by
  rw [cmeanL, foldl_cadd_map_some]
  simp [cdiv]

theorem filter_cltC_map (l : List (ℚ × ℚ)) (c : ℚ) :
    (l.map (Prod.map some some)).filter (fun p => cltC p.1 (some c)) =
      (l.filter (fun q => decide (q.1 < c))).map (Prod.map some some) := by
  rw [List.filter_map]
  rfl

theorem foldl_cdiv_map_some (l : List ℚ) :
    cdiv ((l.map some).foldl cadd (some 0)) (some (((l.map some).length : ℕ) : ℚ)) =
      some (l.sum / (l.length : ℚ)) :=
  cmeanL_map_some l

theorem map_some_isEmpty (l : List ℚ) : ((l.map some : List Cell)).isEmpty = l.isEmpty := by
  cases l <;> rfl

/-- C8: `cpp_vowel_center` with the `wcentroid` method and NA removal
first drops jointly every pair where either coordinate is NA, returns
the NaN pair when nothing remains, and otherwise returns `c1` the mean
of the retained `f1` values and `c2` the mean of the retained `f2`
values whose matching `f1` value is strictly below `c1`, falling back
to the mean of all retained `f2` values when no `f1` value lies
strictly below `c1`. -/
theorem cpp_vowel_center_wcentroid_spec (f1 f2 : List Cell)
    (_hlen : f1.length = f2.length) :
    cpp_vowel_center f1 f2 "wcentroid" true =
      .ok
        (let q := ((f1.zip f2).filter (fun p => p.1.isSome && p.2.isSome)).map
            (fun p => (p.1.getD 0, p.2.getD 0))
         if q.length = 0 then (none, none)
         else
           (some ((q.map Prod.fst).sum / (q.length : ℚ)),
            some
              (let lower := (q.filter (fun w =>
                  decide (w.1 < (q.map Prod.fst).sum / (q.length : ℚ)))).map Prod.snd
               if lower = [] then (q.map Prod.snd).sum / (q.length : ℚ)
               else lower.sum / (lower.length : ℚ)))) := by
  have hall : ∀ p ∈ (f1.zip f2).filter (fun p => p.1.isSome && p.2.isSome),
      p.1.isSome ∧ p.2.isSome := by
    intro p hp
    have hm := List.of_mem_filter hp
    simpa using hm
  simp only [cpp_vowel_center, if_true]
  set clean := (f1.zip f2).filter (fun p => p.1.isSome && p.2.isSome) with hcdef
  set q := clean.map (fun p => (p.1.getD 0, p.2.getD 0)) with hqdef
  have hmap : clean = q.map (Prod.map some some) := by
    rw [hqdef]
    exact allSomePairs hall
  by_cases h0 : clean.length = 0
  · rw [if_pos h0]
    have h0q : q.length = 0 := by rw [hqdef, List.length_map]; exact h0
    rw [if_pos h0q]
    rfl
  · rw [if_neg h0]
    rw [if_neg (by decide : ¬("wcentroid" : String) = "centroid")]
    rw [if_neg (by decide : ¬("wcentroid" : String) = "twomeans")]
    have h0q : ¬q.length = 0 := by rw [hqdef, List.length_map]; exact h0
    rw [if_neg h0q]
    rw [hmap, map_pairs_fst q, cmeanL_map_some,
      show (q.map Prod.fst).length = q.length from by simp]
    rw [filter_cltC_map q ((q.map Prod.fst).sum / (q.length : ℚ))]
    rw [map_pairs_snd (q.filter (fun w =>
      decide (w.1 < (q.map Prod.fst).sum / (q.length : ℚ))))]
    rw [map_some_isEmpty]
    by_cases hl : (q.filter (fun w =>
        decide (w.1 < (q.map Prod.fst).sum / (q.length : ℚ)))).map Prod.snd = []
    · rw [if_pos (by rw [hl]; rfl), if_pos hl, map_pairs_snd q, cmeanL_map_some,
        show (q.map Prod.snd).length = q.length from by simp]
      rfl
    · rw [if_neg (by
        intro hcon
        exact hl (List.isEmpty_iff.mp hcon)), if_neg hl, foldl_cadd_map_some]
      simp only [cdiv, List.length_map, zero_add]
      rfl

/-- Witness for C8 at the concrete vowel-space example of the source
documentation: the paired means give center `(450, 1550)`. -/
theorem cpp_vowel_center_wcentroid_spec_witness :
    ([some 300, some 600, some 600, some 300] : List Cell).length =
      ([some 2200, some 1700, some 1000, some 900] : List Cell).length ∧
    cpp_vowel_center [some 300, some 600, some 600, some 300]
      [some 2200, some 1700, some 1000, some 900] "wcentroid" true =
      .ok (some 450, some 1550) := by
  refine ⟨rfl, ?_⟩
  rw [cpp_vowel_center_wcentroid_spec [some 300, some 600, some 600, some 300]
    [some 2200, some 1700, some 1000, some 900] rfl]
  norm_num
  simp

/-- Witness for C7 at the concrete input of the claim: the first
missing-classification transition of `[0, 0, 1.2, 1.5, 2.0]` with
threshold 0 is at 1-based position 3. -/
theorem cpp_left_changepoint_spec_witness :
    cpp_left_changepoint [some 0, some 0, some (6/5), some (3/2), some 2] 0 = some 3 :=
  (cpp_left_changepoint_spec [some 0, some 0, some (6/5), some (3/2), some 2] 0).2.2

/-- C1: the spec claims that `rPVI` with NA removal first strips the NaN
elements and then averages the absolute consecutive differences of the
filtered sequence.  The code instead reads `n = x.size()` before
filtering, so on `[1, NA, 2]` it runs the loop to the unfiltered length
and indexes past the end of the filtered two-element vector: the
embedded code traps out of range instead of returning the claimed
`mean(|2-1|) = 1`. -/
theorem rPVI_prefilter_length_bug :
    rPVI [some 1, none, some 2] true = .error RErr.oob ∧
    rPVI [some 1, none, some 2] true ≠ .ok (some 1) ∧
    rPVI [some 1, some 2, some 4, some 7] true = .ok (some 2) := by
  have h : rPVI [some 1, none, some 2] true = Except.error RErr.oob := rfl
  refine ⟨h, ?_, ?_⟩
  · rw [h]
    intro hc
    exact Except.noConfusion hc
  · rw [rPVI_eq]
    rw [if_pos (by norm_num : 1 < ([some (1:ℚ), some 2, some 4, some 7] : List Cell).length)]
    rw [show (if true then filterNA [some (1:ℚ), some 2, some 4, some 7]
        else [some (1:ℚ), some 2, some 4, some 7]) =
        [some (1:ℚ), some 2, some 4, some 7] from rfl]
    rw [rpviGo_inbounds [some (1:ℚ), some 2, some 4, some 7]
      (([some (1:ℚ), some 2, some 4, some 7] : List Cell).length - 1) 1 (some 0) (by norm_num)]
    have hb : ∀ (v : Cell) (k : Cell → Except RErr Cell),
        ((Except.ok v : Except RErr Cell) >>= k) = k v := fun _ _ => rfl
    rw [hb]
    norm_num [List.range', cadd, csub, cabs, cdiv]
    rfl
